import Mathlib

/-
Verification of the container operations of `trx_file_zarr.py`
(repository frheault/tractography_file_format).

The file shallowly embeds the pure content of the module: the container
state (`TrxFile`), the helper functions `intersect_groups` and
`compute_lengths`, metadata pruning / emptiness testing, schema cloning
(`TrxFile.__init__` with `init_as`), `TrxFile.append` and `TrxFile.select`.

Modelling conventions:
* zarr arrays are Lean lists; a zarr group of named arrays is an
  association list `List (String × _)` (zarr keys are unique).
* `positions` entries are float16 3-vectors and per-point / per-streamline /
  per-group rows are numeric rows; the code only ever moves them
  (concatenation, gathering), never computes with them, so their payload is
  modelled as opaque integers (bit patterns).
* the affine is a list of rationals; `np.allclose` is modelled with the
  numpy default tolerances as exact rationals.
* machine integers: offsets and group indices live in uint64 arrays, so
  additions on them are reduced mod 2^64; `compute_lengths` casts to
  uint32 (reduction mod 2^32); `select` casts its indices to uint32.
* the backing store only matters through "is it a ZipStore" (`isZip`).
-/

set_option maxHeartbeats 1000000

namespace TrxZarr

/-- One 3D point of the `positions` array (opaque float16 bit patterns:
positions are only gathered and concatenated, never computed with). -/
abbrev Vec3 := ℤ × ℤ × ℤ

/-- One row of a per-point / per-streamline / per-group array (opaque payload). -/
abbrev Row := List ℤ

/-- The error taxonomy of the spec.  In `trx_file_zarr.py` every failure is a
`ValueError`; the constructors correspond to the distinct messages. -/
inductive TrxError where
  | schemaMismatch
  | immutableBackend
  | conflictingPolicy
  | keySetMismatch
  | ambiguousGroupPolicy
  | indexOutOfRange
deriving DecidableEq, Repr

/-- The observable state of a `TrxFile`: root attributes, the two
distinguished arrays, and the four named sub-collections. -/
structure TrxFile where
  voxel_to_rasmm : List ℤ
  dimensions : List ℕ
  nb_streamlines : ℕ
  nb_points : ℕ
  positions : List Vec3
  offsets : List ℕ
  dpp : List (String × List Row)
  dps : List (String × List Row)
  grp : List (String × List ℕ)
  dpg : List (String × List (String × List Row))
  isZip : Bool
deriving DecidableEq, Repr

/-- `np.allclose(a, b)` with the numpy defaults `rtol=1e-5`, `atol=1e-8`:
elementwise `|a - b| <= atol + rtol * |b|`.  Affine entries are modelled
as integer-valued floats, so the comparison is stated exactly, scaled by
10^8: `10^8 * |a - b| <= 1 + 10^3 * |b|`. -/
def allclose (a b : List ℤ) : Bool :=
  a.length == b.length &&
    (List.zip a b).all (fun p =>
      decide (100000000 * |p.1 - p.2| ≤ 1 + 1000 * |p.2|))

/-- Ordered insertion for `insertionSort`. -/
def insertLe (le : α → α → Bool) (a : α) : List α → List α
  | [] => [a]
  | b :: bs => if le a b then a :: b :: bs else b :: insertLe le a bs

/-- A stable comparison sort (insertion sort). -/
def insertionSort (le : α → α → Bool) : List α → List α
  | [] => []
  | a :: as => insertLe le a (insertionSort le as)

/-- `_check_same_keys(key_1, key_2)`: sort both key lists and compare. -/
def sameKeys (k1 k2 : List String) : Bool :=
  insertionSort (fun a b => !decide (b < a)) k1 =
    insertionSort (fun a b => !decide (b < a)) k2

/-- The keys of a named collection (`array_keys()` / `group_keys()`). -/
def keysOf (l : List (String × β)) : List String := l.map Prod.fst

/-- Reduction of an integer to uint32 (`np.uint32` cast). -/
def u32 (x : ℤ) : ℕ := (x % 4294967296).toNat

/-- `np.ediff1d(offsets, to_end=nb_points - offsets[-1])` on a uint64 array,
computed in exact integers (the uint64 wrap mod 2^64 is absorbed by the
subsequent uint32 cast, since 2^32 divides 2^64). -/
def ediff1dToEnd (offsets : List ℕ) (nbPoints : ℕ) : List ℤ :=
  (List.zipWith (fun (a b : ℕ) => (b : ℤ) - (a : ℤ)) offsets offsets.tail) ++
    [(nbPoints : ℤ) - ((offsets.getLastD 0 : ℕ) : ℤ)]

/-- `compute_lengths(offsets, nb_points)`: lengths from offsets and header
information, cast to `np.uint32`. -/
def computeLengths (offsets : List ℕ) (nbPoints : ℕ) : List ℕ :=
  if 1 < offsets.length then (ediff1dToEnd offsets nbPoints).map u32
  else if offsets.length = 1 then [u32 (nbPoints : ℤ)]
  else [0]

/-- `TrxFile.prune_metadata(force)`: remove every per-point, per-streamline
and group array whose first dimension is zero (or unconditionally under
`force`), then every per-group subtree whose owning group no longer exists,
and inside surviving subtrees every zero-length (or `force`) per-group
array. -/
def pruneMetadata (force : Bool) (t : TrxFile) : TrxFile :=
  let dpp := t.dpp.filter (fun kv => !(kv.2.length == 0 || force))
  let dps := t.dps.filter (fun kv => !(kv.2.length == 0 || force))
  let grp := t.grp.filter (fun kv => !(kv.2.length == 0 || force))
  let dpg := (t.dpg.filter (fun gv => (grp.lookup gv.1).isSome)).map
      (fun gv => (gv.1, gv.2.filter (fun kv => !(kv.2.length == 0 || force))))
  { t with dpp := dpp, dps := dps, grp := grp, dpg := dpg }

/-- The emptiness test performed by `TrxFile.is_empty` after its pruning
pass: no named array or group anywhere and empty `positions`/`offsets`. -/
def isEmptyB (t : TrxFile) : Bool :=
  !(t.dpp.length != 0 || t.dps.length != 0 || t.grp.length != 0 ||
    t.dpg.length != 0 || t.positions.length != 0 || t.offsets.length != 0)

/-- `TrxFile.is_empty()`: prunes the metadata (a state change!) and then
tests emptiness.  Returns the answer together with the pruned state. -/
def isEmptyP (t : TrxFile) : Bool × TrxFile :=
  let t2 := pruneMetadata false t
  (isEmptyB t2, t2)

/-- `TrxFile.__init__(init_as=t)`: schema clone - same affine/dimensions,
zero counts, empty `positions`/`offsets`, every per-point / per-streamline /
group array recreated with zero rows, and every non-empty per-group subtree
recreated with zero-row arrays (an empty subtree is not recreated). -/
def initAs (t : TrxFile) : TrxFile :=
  { voxel_to_rasmm := t.voxel_to_rasmm
    dimensions := t.dimensions
    nb_streamlines := 0
    nb_points := 0
    positions := []
    offsets := []
    dpp := t.dpp.map (fun kv => (kv.1, ([] : List Row)))
    dps := t.dps.map (fun kv => (kv.1, ([] : List Row)))
    grp := t.grp.map (fun kv => (kv.1, ([] : List ℕ)))
    dpg := (t.dpg.filter (fun gv => gv.2.length != 0)).map
        (fun gv => (gv.1, gv.2.map (fun kv => (kv.1, ([] : List Row)))))
    isZip := false }

/-- A nibabel `ArraySequence` as built by the `streamlines` property. -/
structure ArraySeq where
  data : List Vec3
  offsets : List ℕ
  lengths : List ℕ
deriving DecidableEq, Repr

/-- The `TrxFile.streamlines` property: positions plus offsets plus the
derived lengths. -/
def TrxFile.streamlines (t : TrxFile) : ArraySeq :=
  ⟨t.positions, t.offsets, computeLengths t.offsets t.nb_points⟩

/-- The (value, original position) pairs of a list - semantically
`zip(xs, range(len(xs)))`, defined by recursion on the list with a running
position counter for ease of induction. -/
def indexPairs : List ℕ → ℕ → List (ℕ × ℕ)
  | [], _ => []
  | x :: xs, k => (x, k) :: indexPairs xs (k + 1)

/-- Comparison used to model `np.argsort`: by value, ties broken by
original position (a stable sort; numpy's default introsort may order
equal values differently, which only affects which duplicate occurrence's
position is reported). -/
def pairLe (a b : ℕ × ℕ) : Bool := a.1 < b.1 || (a.1 == b.1 && a.2 ≤ b.2)

/-- `np.argsort(xs)`: the original positions listed in sorted-value order. -/
def argsort (xs : List ℕ) : List ℕ :=
  (insertionSort pairLe (indexPairs xs 0)).map Prod.snd

/-- `intersect_groups(group, indices)` (the scalar-`indices` branch of the
Python code is unreachable from `select`, which always passes an array):

    index = np.argsort(indices)
    sorted_x = indices[index]
    sorted_index = np.searchsorted(sorted_x, group)   -- leftmost insertion
    yindex = np.take(index, sorted_index, mode="clip")
    mask = indices[yindex] != group
    return yindex[~mask]

`np.searchsorted(sorted_x, g)` on the sorted array `sorted_x` is the number
of its entries strictly below `g`.  The computation is vectorized over the
group in the source; `igBody` is its per-group-element body. -/
def igBody (indices : List ℕ) (g : ℕ) : Option ℕ :=
  let index := argsort indices
  let sortedX := index.map (fun i => indices.getD i 0)
  let si := sortedX.countP (fun x => decide (x < g))
  let yi := index.getD (min si (index.length - 1)) 0
  if indices.getD yi 0 = g then some yi else none

/-- `intersect_groups(group, indices)`: one candidate output position per
element of `group`, kept when the looked-up index value matches. -/
def intersectGroups (group indices : List ℕ) : List ℕ :=
  group.filterMap (igBody indices)

/-- `np.cumsum`: running partial sums. -/
def cumsum : List ℕ → List ℕ
  | [] => []
  | a :: as => a :: (cumsum as).map (fun x => x + a)

/-- Row-block gathering of an `ArraySequence` under fancy indexing followed
by `get_data()`: for each index the block
`data[offsets[i] : offsets[i] + lengths[i]]`, all concatenated in index
order. -/
def gatherBlocks (data : List α) (offsets lengths : List ℕ) (idx : List ℕ) :
    List α :=
  (idx.map (fun i => (data.drop (offsets.getD i 0)).take (lengths.getD i 0))).flatten

/-- The construction phase of `TrxFile.select` once the (already uint32-cast)
indices passed the range check and are non-empty: clone the schema, gather
positions / per-point / per-streamline data in index order, rebuild the
offsets as `[0] ++ cumsum(selected_lengths[:-1])`, rebuild groups through
`intersect_groups` when `keep_group` (dropping groups whose new membership is
empty), copy per-group data of groups still present, set the counts from the
new arrays and prune. -/
def selectBody (t : TrxFile) (idx : List ℕ) (keep_group : Bool) : TrxFile :=
  let str := t.streamlines
  let selLens := idx.map (fun i => str.lengths.getD i 0)
  let newPos := gatherBlocks str.data str.offsets str.lengths idx
  let newOff : List ℕ := 0 :: cumsum selLens.dropLast
  let newDpp := t.dpp.map (fun kv =>
    (kv.1, gatherBlocks kv.2 str.offsets str.lengths idx))
  let newDps := t.dps.map (fun kv => (kv.1, idx.map (fun i => kv.2.getD i [])))
  let base := initAs t
  let grpSel := if keep_group then
      t.grp.filterMap (fun kv =>
        let ng := intersectGroups kv.2 idx
        if ng.length != 0 then some (kv.1, ng) else none)
    else base.grp
  let dpgSel := base.dpg.map (fun gv =>
      if (grpSel.lookup gv.1).isSome then (gv.1, (t.dpg.lookup gv.1).getD [])
      else gv)
  pruneMetadata false
    { t with positions := newPos, offsets := newOff, dpp := newDpp,
             dps := newDps, grp := grpSel, dpg := dpgSel,
             nb_streamlines := newOff.length, nb_points := newPos.length,
             isZip := false }

/-- `TrxFile.select(indices, keep_group)`: cast the indices to uint32
(`np.array(indices, np.uint32)`, i.e. reduction mod 2^32), reject when the
maximum exceeds `nb_streamlines - 1` (the `np.min < 0` disjunct of the code
is vacuous on an unsigned array), return a pruned schema clone on empty
indices, otherwise build the sub-container.  `np.max` of the non-empty
unsigned array is its fold with `max` from 0. -/
def select (t : TrxFile) (indices : List ℤ) (keep_group : Bool) :
    Except TrxError TrxFile :=
  let idx : List ℕ := indices.map u32
  if idx ≠ [] ∧ (((idx.foldr max 0 : ℕ) : ℤ) > (t.nb_streamlines : ℤ) - 1 ∨
      ((idx.foldr min (idx.headD 0) : ℕ) : ℤ) < 0) then
    Except.error TrxError.indexOutOfRange
  else if idx = [] then Except.ok (pruneMetadata false (initAs t))
  else Except.ok (selectBody t idx keep_group)

/-- Result of `TrxFile.append`: the error raised (if any) and the state of
the target (`self`) and the source (`app_trx`) when the call returns - the
precondition checks themselves prune both containers through `is_empty`. -/
structure AppendOut where
  err : Option TrxError
  target : TrxFile
  source : TrxFile
deriving DecidableEq, Repr

/-- The growth phase of `TrxFile.append` (the source from
`self._zpos.append(...)` on), entered once every precondition check has
passed; `s2` and `a2` are the target and source as left by the checks:
positions appended, offsets appended shifted by the pre-append `nb_points`,
counts updated, early return if the source is empty (pruned once more by
`is_empty`), then per-point, per-streamline, group (shifted by the *already
incremented* `nb_streamlines`) and, under `keep_first_dpg`, per-group data.
uint64 array arithmetic is reduced mod 2^64. -/
def appendGrow (s2 a2 : TrxFile) (keep_first_dpg : Bool) : AppendOut :=
  let np0 := s2.nb_points
  let s3 := { s2 with
    positions := s2.positions ++ a2.positions,
    offsets := s2.offsets ++
      a2.offsets.map (fun o => (o + np0) % 18446744073709551616),
    nb_points := s2.nb_points + a2.nb_points,
    nb_streamlines := s2.nb_streamlines + a2.nb_streamlines }
  let a3 := pruneMetadata false a2
  if isEmptyB a3 then ⟨none, s3, a3⟩
  else
    let s4 := { s3 with
      dpp := s3.dpp.map (fun (kv : String × List Row) =>
        (kv.1, kv.2 ++ ((a3.dpp.lookup kv.1).getD []))),
      dps := s3.dps.map (fun (kv : String × List Row) =>
        (kv.1, kv.2 ++ ((a3.dps.lookup kv.1).getD []))) }
    let ns1 := s4.nb_streamlines
    let s5 := { s4 with
      grp := s4.grp.map (fun (kv : String × List ℕ) =>
        match a3.grp.lookup kv.1 with
        | some g => (kv.1, kv.2 ++
            g.map (fun v => (v + ns1) % 18446744073709551616))
        | none => kv) }
    let dpgNew := s5.dpg.map
      (fun (gv : String × List (String × List Row)) =>
        match a3.dpg.lookup gv.1 with
        | some srcArrs => (gv.1, gv.2.map
            (fun (kv : String × List Row) =>
              match srcArrs.lookup kv.1 with
              | some d => (kv.1, kv.2 ++ d)
              | none => kv))
        | none => gv)
    let s6 := if keep_first_dpg then { s5 with dpg := dpgNew } else s5
    ⟨none, s6, a3⟩

/-- `TrxFile.append(app_trx, delete_dpg, keep_first_dpg)`, following the
source line by line: the affine/dimension check, the ZipStore check, the
conflicting-policy check, the two key-set checks (each evaluating
`self.is_empty()` and possibly `app_trx.is_empty()`, which prune), the
ambiguous-policy check (which, as in the source, tests `len(self._zdpg)`
twice - the source is never inspected), then the growth phase
`appendGrow`. -/
def append (self app : TrxFile) (delete_dpg keep_first_dpg : Bool) :
    AppendOut :=
  if ¬ (allclose self.voxel_to_rasmm app.voxel_to_rasmm = true ∧
        self.dimensions = app.dimensions) then
    ⟨some TrxError.schemaMismatch, self, app⟩
  else if self.isZip then
    ⟨some TrxError.immutableBackend, self, app⟩
  else if delete_dpg && keep_first_dpg then
    ⟨some TrxError.conflictingPolicy, self, app⟩
  else
    let s1 := pruneMetadata false self
    let es1 := isEmptyB s1
    let a1 := if es1 then app else pruneMetadata false app
    let bad1 := !es1 && !(isEmptyB a1) &&
      !(sameKeys (keysOf s1.dpp) (keysOf a1.dpp))
    if bad1 then ⟨some TrxError.keySetMismatch, s1, a1⟩
    else
      let s2 := pruneMetadata false s1
      let es2 := isEmptyB s2
      let a2 := if es2 then a1 else pruneMetadata false a1
      let bad2 := !es2 && !(isEmptyB a2) &&
        !(sameKeys (keysOf s2.dps) (keysOf a2.dps))
      if bad2 then ⟨some TrxError.keySetMismatch, s2, a2⟩
      else if !(delete_dpg || keep_first_dpg) &&
          (s2.dpg.length != 0 || s2.dpg.length != 0) then
        ⟨some TrxError.ambiguousGroupPolicy, s2, a2⟩
      else appendGrow s2 a2 keep_first_dpg

/-! ## Spec-side notions: valid containers and the data-model invariant -/

/-- Exclusive prefix sums starting at `k`: the offsets of streamlines of
lengths `lens` laid out in a flat array whose first block starts at `k`. -/
def offsetsFrom (k : ℕ) : List ℕ → List ℕ
  | [] => []
  | l :: ls => k :: offsetsFrom (k + l) ls

/-- The offsets array of a valid container whose streamlines have lengths
`lens` (spec §3: `offset[i]` is the start of streamline `i`). -/
def offsetsOf (lens : List ℕ) : List ℕ := offsetsFrom 0 lens

/-- `t` is a valid container whose streamline lengths are `lens` (spec §3,
after pruning §4.5: positive lengths, fully-populated per-point and
per-streamline arrays, counts matching the arrays; sizes within the uint32
range used by the length computation and the selection cast). -/
def ValidWith (t : TrxFile) (lens : List ℕ) : Prop :=
  t.offsets = offsetsOf lens ∧
  t.nb_points = lens.sum ∧
  t.nb_streamlines = lens.length ∧
  t.positions.length = lens.sum ∧
  (∀ l ∈ lens, 0 < l) ∧
  lens.sum < 4294967296 ∧
  lens.length < 4294967296 ∧
  (∀ kv ∈ t.dpp, (kv.2 : List Row).length = lens.sum) ∧
  (∀ kv ∈ t.dps, (kv.2 : List Row).length = lens.length)

instance decidableValidWith (t : TrxFile) (lens : List ℕ) :
    Decidable (ValidWith t lens) := by
  unfold ValidWith
  exact inferInstance

/-- The invariant of claim C8: offsets as long as `streamline_count`,
positions as long as `point_count`, and (for a non-empty offsets array)
`point_count` equals the last offset plus the derived length of the last
streamline. -/
def Inv (t : TrxFile) : Prop :=
  t.offsets.length = t.nb_streamlines ∧
  t.positions.length = t.nb_points ∧
  (t.offsets ≠ [] →
    t.offsets.getLastD 0 +
      (computeLengths t.offsets t.nb_points).getLastD 0 = t.nb_points)

/-- The point block of streamline `i` in a container with lengths `lens`
(spec §4.4: a selected streamline's point block). -/
def streamlineBlock (t : TrxFile) (lens : List ℕ) (i : ℕ) : List Vec3 :=
  (t.positions.drop ((lens.take i).sum)).take (lens.getD i 0)

/-! ## Offsets / lengths lemmas -/

theorem offsetsFrom_length (k : ℕ) (lens : List ℕ) :
    (offsetsFrom k lens).length = lens.length := by
  induction lens generalizing k with
  | nil => rfl
  | cons a ls ih => simp [offsetsFrom, ih]

theorem offsetsFrom_ne_nil (k : ℕ) (lens : List ℕ) (h : lens ≠ []) :
    offsetsFrom k lens ≠ [] := by
  cases lens with
  | nil => exact absurd rfl h
  | cons a ls => simp [offsetsFrom]

theorem offsetsFrom_getD (k : ℕ) (lens : List ℕ) (i : ℕ)
    (hi : i < lens.length) :
    (offsetsFrom k lens).getD i 0 = k + (lens.take i).sum := by
  induction lens generalizing k i with
  | nil => simp at hi
  | cons a ls ih =>
    cases i with
    | zero => simp [offsetsFrom]
    | succ j =>
      have hj : j < ls.length := by simpa using hi
      simp only [offsetsFrom, List.getD_cons_succ, List.take_succ_cons,
        List.sum_cons]
      rw [ih (k + a) j hj]
      omega

theorem offsetsFrom_mem_le (k : ℕ) (lens : List ℕ) (o : ℕ)
    (ho : o ∈ offsetsFrom k lens) : o ≤ k + lens.sum := by
  induction lens generalizing k with
  | nil => simp [offsetsFrom] at ho
  | cons a ls ih =>
    simp only [offsetsFrom, List.mem_cons] at ho
    rcases ho with h | h
    · omega
    · have := ih (k + a) h
      simp only [List.sum_cons]
      omega

theorem getLastD_of_ne_nil {α : Type _} {l : List α} (h : l ≠ []) (d : α) :
    l.getLastD d = l.getLast h := by
  rw [List.getLastD_eq_getLast?, List.getLast?_eq_getLast l h, Option.getD_some]

theorem offsetsFrom_getLastD (k : ℕ) (lens : List ℕ) (h : lens ≠ []) :
    (offsetsFrom k lens).getLastD 0 = k + lens.dropLast.sum := by
  induction lens generalizing k with
  | nil => exact absurd rfl h
  | cons a ls ih =>
    cases ls with
    | nil => simp [offsetsFrom]
    | cons b ls2 =>
      have hne : offsetsFrom (k + a) (b :: ls2) ≠ [] :=
        offsetsFrom_ne_nil _ _ (by simp)
      rw [show offsetsFrom k (a :: b :: ls2) =
            k :: offsetsFrom (k + a) (b :: ls2) from rfl,
        List.getLastD_cons, getLastD_of_ne_nil hne k,
        ← getLastD_of_ne_nil hne 0, ih (k + a) (by simp)]
      simp only [List.dropLast_cons₂, List.sum_cons]
      omega

theorem offsetsFrom_append (k : ℕ) (l1 l2 : List ℕ) :
    offsetsFrom k (l1 ++ l2) =
      offsetsFrom k l1 ++ offsetsFrom (k + l1.sum) l2 := by
  induction l1 generalizing k with
  | nil => simp [offsetsFrom]
  | cons a ls ih =>
    simp only [List.cons_append, offsetsFrom, List.sum_cons, List.append_eq]
    rw [ih (k + a), show k + (a + ls.sum) = k + a + ls.sum from by omega]

theorem offsetsFrom_shift (k c : ℕ) (lens : List ℕ) :
    offsetsFrom (k + c) lens = (offsetsFrom k lens).map (fun o => o + c) := by
  induction lens generalizing k with
  | nil => rfl
  | cons a ls ih =>
    have hc : k + c + a = k + a + c := by omega
    simp only [offsetsFrom, List.map_cons, hc, ih (k + a)]

theorem ediff1d_offsetsFrom (lens : List ℕ) (k : ℕ) (h : lens ≠ []) :
    ediff1dToEnd (offsetsFrom k lens) (k + lens.sum) =
      lens.map (fun (l : ℕ) => (l : ℤ)) := by
  induction lens generalizing k with
  | nil => exact absurd rfl h
  | cons a ls ih =>
    cases ls with
    | nil =>
      show ediff1dToEnd [k] (k + [a].sum) = [(a : ℤ)]
      have hlast : [k].getLastD 0 = k := rfl
      simp only [ediff1dToEnd, List.tail_cons, List.zipWith_nil_right,
        List.nil_append, hlast, List.sum_cons, List.sum_nil,
        List.cons.injEq, and_true]
      push_cast; ring
    | cons b ls2 =>
      have ihx := ih (k + a) (by simp)
      rw [show offsetsFrom (k + a) (b :: ls2) =
            (k + a) :: offsetsFrom (k + a + b) ls2 from rfl] at ihx
      rw [show offsetsFrom k (a :: b :: ls2) =
            k :: (k + a) :: offsetsFrom (k + a + b) ls2 from rfl]
      simp only [ediff1dToEnd, List.tail_cons, List.zipWith_cons_cons,
        List.getLastD_cons, List.sum_cons, List.map_cons,
        List.cons_append] at ihx ⊢
      have h2 : k + (a + (b + ls2.sum)) = k + a + (b + ls2.sum) := by omega
      rw [h2, ihx, List.cons.injEq]
      refine ⟨by push_cast; ring, rfl⟩

theorem u32_natCast (l : ℕ) (h : l < 4294967296) : u32 (l : ℤ) = l := by
  have h0 : (0 : ℤ) ≤ (l : ℤ) := by positivity
  have h1 : (l : ℤ) < 4294967296 := by exact_mod_cast h
  simp [u32, Int.emod_eq_of_lt h0 h1]

theorem computeLengths_offsetsOf (lens : List ℕ) (h : lens ≠ [])
    (hb : ∀ l ∈ lens, l < 4294967296) :
    computeLengths (offsetsOf lens) lens.sum = lens := by
  have hlen : (offsetsOf lens).length = lens.length := offsetsFrom_length 0 lens
  have hdiff := ediff1d_offsetsFrom lens 0 h
  rw [Nat.zero_add] at hdiff
  cases lens with
  | nil => exact absurd rfl h
  | cons a ls =>
    cases ls with
    | nil =>
      have ha := hb a (by simp)
      show computeLengths [0] ([a].sum) = [a]
      simp [computeLengths, u32_natCast a ha]
    | cons b ls2 =>
      have h2 : 1 < (offsetsOf (a :: b :: ls2)).length := by
        rw [hlen]; simp
      rw [computeLengths, if_pos h2, offsetsOf, hdiff, List.map_map]
      have hcg : ∀ x ∈ (a :: b :: ls2),
          (u32 ∘ fun (l : ℕ) => (l : ℤ)) x = id x := by
        intro x hx
        exact u32_natCast x (hb x hx)
      rw [List.map_congr_left hcg, List.map_id]

theorem offsetsFrom_eq_cumsum (k : ℕ) (lens : List ℕ) (h : lens ≠ []) :
    offsetsFrom k lens = k :: (cumsum lens.dropLast).map (fun x => x + k) := by
  induction lens generalizing k with
  | nil => exact absurd rfl h
  | cons a ls ih =>
    cases ls with
    | nil => simp [offsetsFrom, cumsum]
    | cons b ls2 =>
      rw [show offsetsFrom k (a :: b :: ls2) =
            k :: offsetsFrom (k + a) (b :: ls2) from rfl,
        ih (k + a) (by simp), List.dropLast_cons₂,
        show cumsum (a :: (b :: ls2).dropLast) =
          a :: (cumsum ((b :: ls2).dropLast)).map (fun x => x + a) from rfl]
      simp only [List.map_cons, List.map_map, List.cons.injEq, true_and]
      refine ⟨by omega, ?_⟩
      apply List.map_congr_left
      intro x _
      simp only [Function.comp_apply]
      omega

theorem offsetsOf_eq_cumsum (lens : List ℕ) (h : lens ≠ []) :
    offsetsOf lens = 0 :: cumsum lens.dropLast := by
  rw [offsetsOf, offsetsFrom_eq_cumsum 0 lens h]
  simp

theorem inv_of_valid_core (t : TrxFile) (lens : List ℕ)
    (hoff : t.offsets = offsetsOf lens)
    (hnp : t.nb_points = lens.sum)
    (hns : t.nb_streamlines = lens.length)
    (hpos : t.positions.length = lens.sum)
    (hb : ∀ l ∈ lens, l < 4294967296) : Inv t := by
  refine ⟨by rw [hoff, hns]; exact offsetsFrom_length 0 lens,
    by rw [hpos, hnp], ?_⟩
  intro hne
  have hlne : lens ≠ [] := by
    intro hh
    rw [hh] at hoff
    exact hne (by rw [hoff]; rfl)
  rw [hoff, hnp, computeLengths_offsetsOf lens hlne hb, offsetsOf,
    offsetsFrom_getLastD 0 lens hlne, getLastD_of_ne_nil hlne 0]
  have happ := List.dropLast_append_getLast hlne
  have hsum : lens.dropLast.sum + lens.getLast hlne = lens.sum := by
    conv_rhs => rw [← happ]
    simp
  omega

/-! ## Gathering lemmas -/

theorem gather_blocks_from {α : Type _} (lens : List ℕ) (data : List α)
    (k : ℕ) :
    ((List.range lens.length).map (fun i =>
        (data.drop ((offsetsFrom k lens).getD i 0)).take
          (lens.getD i 0))).flatten =
      (data.drop k).take lens.sum := by
  induction lens generalizing data k with
  | nil => simp
  | cons a ls ih =>
    rw [show (a :: ls).length = ls.length + 1 from rfl,
      List.range_succ_eq_map, List.map_cons, List.map_map, List.flatten_cons]
    have hcg : ∀ i ∈ List.range ls.length,
        ((fun i => (data.drop ((offsetsFrom k (a :: ls)).getD i 0)).take
          ((a :: ls).getD i 0)) ∘ Nat.succ) i =
        (data.drop ((offsetsFrom (k + a) ls).getD i 0)).take (ls.getD i 0) := by
      intro i _
      simp only [Function.comp_apply]
      rw [show offsetsFrom k (a :: ls) = k :: offsetsFrom (k + a) ls from rfl,
        List.getD_cons_succ, List.getD_cons_succ]
    rw [List.map_congr_left hcg, ih data (k + a)]
    rw [show (offsetsFrom k (a :: ls)).getD 0 0 = k from rfl,
      show (a :: ls).getD 0 0 = a from rfl, List.sum_cons, List.take_add,
      List.drop_drop]

theorem take_sum_le (lens : List ℕ) (i : ℕ) (hi : i < lens.length) :
    (lens.take i).sum + lens.getD i 0 ≤ lens.sum := by
  have h1 : (lens.take (i + 1)).sum = (lens.take i).sum + lens.getD i 0 := by
    rw [List.sum_take_succ lens i hi, List.getD_eq_getElem lens 0 hi]
  have h2 : (lens.take (i + 1)).sum ≤ lens.sum :=
    List.Sublist.sum_le_sum (List.take_sublist _ _) (fun a _ => Nat.zero_le a)
  omega

theorem block_length {α : Type _} (data : List α) (lens : List ℕ) (i : ℕ)
    (hi : i < lens.length) (hdata : lens.sum ≤ data.length) :
    ((data.drop ((offsetsOf lens).getD i 0)).take (lens.getD i 0)).length
      = lens.getD i 0 := by
  rw [offsetsOf, offsetsFrom_getD 0 lens i hi, Nat.zero_add,
    List.length_take, List.length_drop]
  have := take_sum_le lens i hi
  omega

theorem gatherBlocks_length {α : Type _} (data : List α) (lens : List ℕ)
    (idx : List ℕ) (hidx : ∀ i ∈ idx, i < lens.length)
    (hdata : lens.sum ≤ data.length) :
    (gatherBlocks data (offsetsOf lens) lens idx).length =
      (idx.map (fun i => lens.getD i 0)).sum := by
  unfold gatherBlocks
  rw [List.length_flatten, List.map_map]
  congr 1
  apply List.map_congr_left
  intro i hi
  exact block_length data lens i (hidx i hi) hdata

theorem map_getD_range {α : Type _} (l : List α) (d : α) :
    (List.range l.length).map (fun i => l.getD i d) = l := by
  induction l with
  | nil => rfl
  | cons a ls ih =>
    rw [show (a :: ls).length = ls.length + 1 from rfl,
      List.range_succ_eq_map, List.map_cons, List.map_map]
    have hcg : ∀ i ∈ List.range ls.length,
        ((fun i => (a :: ls).getD i d) ∘ Nat.succ) i = ls.getD i d := by
      intro i _
      simp only [Function.comp_apply, List.getD_cons_succ]
    rw [List.map_congr_left hcg, ih]
    rfl

/-! ## Fold-max lemmas (for the range check of `select`) -/

theorem foldr_max_le (l : List ℕ) (c : ℕ) (h : ∀ x ∈ l, x ≤ c) :
    l.foldr max 0 ≤ c := by
  induction l with
  | nil => simp
  | cons a ls ih =>
    simp only [List.foldr_cons]
    exact Nat.max_le.mpr ⟨h a (by simp),
      ih (fun x hx => h x (by simp [hx]))⟩

theorem le_foldr_max (l : List ℕ) (x : ℕ) (hx : x ∈ l) :
    x ≤ l.foldr max 0 := by
  induction l with
  | nil => simp at hx
  | cons a ls ih =>
    simp only [List.foldr_cons]
    rcases List.mem_cons.mp hx with h | h
    · subst h; exact Nat.le_max_left _ _
    · exact le_trans (ih h) (Nat.le_max_right _ _)

theorem foldr_max_const (l : List ℕ) (c : ℕ) (h : ∀ x ∈ l, x ≤ c) :
    l.foldr max c = c := by
  induction l with
  | nil => rfl
  | cons a ls ih =>
    simp only [List.foldr_cons, ih (fun x hx => h x (by simp [hx]))]
    exact Nat.max_eq_right (h a (by simp))

theorem foldr_max_range (n : ℕ) : (List.range n).foldr max 0 = n - 1 := by
  cases n with
  | zero => rfl
  | succ m =>
    rw [List.range_succ, List.foldr_append]
    simp only [List.foldr_cons, List.foldr_nil, Nat.max_zero]
    rw [foldr_max_const (List.range m) m
      (fun x hx => le_of_lt (List.mem_range.mp hx))]
    omega

/-! ## Pruning lemmas -/

theorem pruneMetadata_positions (f : Bool) (t : TrxFile) :
    (pruneMetadata f t).positions = t.positions := rfl

theorem pruneMetadata_offsets (f : Bool) (t : TrxFile) :
    (pruneMetadata f t).offsets = t.offsets := rfl

theorem pruneMetadata_nb_points (f : Bool) (t : TrxFile) :
    (pruneMetadata f t).nb_points = t.nb_points := rfl

theorem pruneMetadata_nb_streamlines (f : Bool) (t : TrxFile) :
    (pruneMetadata f t).nb_streamlines = t.nb_streamlines := rfl

theorem pruneMetadata_isZip (f : Bool) (t : TrxFile) :
    (pruneMetadata f t).isZip = t.isZip := rfl

theorem filter_idem {α : Type _} (p : α → Bool) (l : List α) :
    (l.filter p).filter p = l.filter p := by
  rw [List.filter_filter]
  simp only [Bool.and_self]

theorem pruneMetadata_idem (t : TrxFile) :
    pruneMetadata false (pruneMetadata false t) = pruneMetadata false t := by
  obtain ⟨v, d, ns, np, pos, off, dpp, dps, grp, dpg, z⟩ := t
  have hg := filter_idem
    (fun (kv : String × List ℕ) => !(kv.2.length == 0 || false)) grp
  simp only [pruneMetadata, TrxFile.mk.injEq, true_and, and_true, hg]
  refine ⟨filter_idem _ _, filter_idem _ _, ?_⟩
  have hX : List.filter
      (fun gv => ((grp.filter
          (fun (kv : String × List ℕ) => !(kv.2.length == 0 || false))).lookup
            gv.1).isSome)
      ((List.filter (fun gv => ((grp.filter
          (fun (kv : String × List ℕ) => !(kv.2.length == 0 || false))).lookup
            gv.1).isSome) dpg).map
        (fun gv => (gv.1, gv.2.filter
          (fun (kv : String × List Row) => !(kv.2.length == 0 || false))))) =
      (List.filter (fun gv => ((grp.filter
          (fun (kv : String × List ℕ) => !(kv.2.length == 0 || false))).lookup
            gv.1).isSome) dpg).map
        (fun gv => (gv.1, gv.2.filter
          (fun (kv : String × List Row) => !(kv.2.length == 0 || false)))) := by
    apply List.filter_eq_self.mpr
    intro gv hgv
    obtain ⟨gv', hgv', rfl⟩ := List.mem_map.mp hgv
    have h1 := List.of_mem_filter hgv'
    simpa using h1
  rw [hX, List.map_map]
  apply List.map_congr_left
  intro gv _
  simp only [Function.comp_apply, Prod.mk.injEq, true_and]
  exact filter_idem _ _

/-! ## Sorting lemmas, towards `intersect_groups` -/

theorem insertLe_length {α : Type _} (le : α → α → Bool) (a : α)
    (l : List α) : (insertLe le a l).length = l.length + 1 := by
  induction l with
  | nil => rfl
  | cons b bs ih =>
    simp only [insertLe]
    split
    · rfl
    · simp [ih]

theorem insertionSort_length {α : Type _} (le : α → α → Bool) (l : List α) :
    (insertionSort le l).length = l.length := by
  induction l with
  | nil => rfl
  | cons a as ih => simp [insertionSort, insertLe_length, ih]

theorem mem_insertLe {α : Type _} (le : α → α → Bool) (a b : α)
    (l : List α) : b ∈ insertLe le a l ↔ b = a ∨ b ∈ l := by
  induction l with
  | nil => simp [insertLe]
  | cons c cs ih =>
    simp only [insertLe]
    split
    · simp [List.mem_cons]
    · simp only [List.mem_cons, ih]
      tauto

theorem mem_insertionSort {α : Type _} (le : α → α → Bool) (l : List α)
    (b : α) : b ∈ insertionSort le l ↔ b ∈ l := by
  induction l with
  | nil => simp [insertionSort]
  | cons a as ih =>
    simp [insertionSort, mem_insertLe, ih, List.mem_cons]

theorem pairwise_insertLe {α : Type _} (le : α → α → Bool)
    (htot : ∀ a b, le a b = true ∨ le b a = true)
    (htrans : ∀ a b c, le a b = true → le b c = true → le a c = true)
    (a : α) (l : List α) (h : l.Pairwise (fun x y => le x y = true)) :
    (insertLe le a l).Pairwise (fun x y => le x y = true) := by
  induction l with
  | nil => simp [insertLe]
  | cons b bs ih =>
    rcases List.pairwise_cons.mp h with ⟨hb, hbs⟩
    simp only [insertLe]
    split
    case isTrue hab =>
      refine List.pairwise_cons.mpr ⟨?_, h⟩
      intro x hx
      rcases List.mem_cons.mp hx with rfl | hx2
      · exact hab
      · exact htrans a b x hab (hb x hx2)
    case isFalse hab =>
      refine List.pairwise_cons.mpr ⟨?_, ih hbs⟩
      intro x hx
      rcases (mem_insertLe le a x bs).mp hx with rfl | hx2
      · rcases htot x b with h1 | h1
        · exact absurd h1 hab
        · exact h1
      · exact hb x hx2

theorem pairwise_insertionSort {α : Type _} (le : α → α → Bool)
    (htot : ∀ a b, le a b = true ∨ le b a = true)
    (htrans : ∀ a b c, le a b = true → le b c = true → le a c = true)
    (l : List α) :
    (insertionSort le l).Pairwise (fun x y => le x y = true) := by
  induction l with
  | nil => simp [insertionSort]
  | cons a as ih => exact pairwise_insertLe le htot htrans a _ ih

theorem pairLe_total (a b : ℕ × ℕ) :
    pairLe a b = true ∨ pairLe b a = true := by
  simp only [pairLe, Bool.or_eq_true, Bool.and_eq_true, decide_eq_true_eq,
    beq_iff_eq]
  omega

theorem pairLe_trans (a b c : ℕ × ℕ) (h1 : pairLe a b = true)
    (h2 : pairLe b c = true) : pairLe a c = true := by
  simp only [pairLe, Bool.or_eq_true, Bool.and_eq_true, decide_eq_true_eq,
    beq_iff_eq] at h1 h2 ⊢
  omega

theorem pairLe_fst (a b : ℕ × ℕ) (h : pairLe a b = true) : a.1 ≤ b.1 := by
  simp only [pairLe, Bool.or_eq_true, Bool.and_eq_true, decide_eq_true_eq,
    beq_iff_eq] at h
  omega

theorem indexPairs_length (xs : List ℕ) (k : ℕ) :
    (indexPairs xs k).length = xs.length := by
  induction xs generalizing k with
  | nil => rfl
  | cons x xs ih => simp [indexPairs, ih]

theorem mem_indexPairs (xs : List ℕ) (k : ℕ) (p : ℕ × ℕ)
    (hp : p ∈ indexPairs xs k) :
    k ≤ p.2 ∧ p.2 - k < xs.length ∧ xs.getD (p.2 - k) 0 = p.1 := by
  induction xs generalizing k with
  | nil => simp [indexPairs] at hp
  | cons x xs ih =>
    simp only [indexPairs, List.mem_cons] at hp
    rcases hp with rfl | hp
    · simp
    · obtain ⟨h1, h2, h3⟩ := ih (k + 1) hp
      simp only [List.length_cons]
      refine ⟨by omega, by omega, ?_⟩
      have hc : p.2 - k = (p.2 - (k + 1)) + 1 := by omega
      rw [hc, List.getD_cons_succ]
      exact h3

theorem map_fst_indexPairs (xs : List ℕ) (k : ℕ) :
    (indexPairs xs k).map Prod.fst = xs := by
  induction xs generalizing k with
  | nil => rfl
  | cons x xs ih => simp [indexPairs, ih]

theorem sorted_getD_countP (S : List ℕ)
    (hS : S.Pairwise (fun x y => x ≤ y)) (g : ℕ) (hg : g ∈ S) :
    S.countP (fun x => decide (x < g)) < S.length ∧
    S.getD (S.countP (fun x => decide (x < g))) 0 = g := by
  induction S with
  | nil => simp at hg
  | cons a T ih =>
    rcases List.pairwise_cons.mp hS with ⟨ha, hT⟩
    by_cases hlt : a < g
    · have hgT : g ∈ T := by
        rcases List.mem_cons.mp hg with rfl | h
        · omega
        · exact h
      obtain ⟨ih1, ih2⟩ := ih hT hgT
      have hstep : (a :: T).countP (fun x => decide (x < g)) =
          T.countP (fun x => decide (x < g)) + 1 := by
        rw [List.countP_cons]
        simp [hlt]
      rw [hstep]
      refine ⟨by simpa using Nat.succ_lt_succ ih1, ?_⟩
      rw [List.getD_cons_succ]
      exact ih2
    · have hc0 : (a :: T).countP (fun x => decide (x < g)) = 0 := by
        apply List.countP_eq_zero.mpr
        intro x hx
        rcases List.mem_cons.mp hx with rfl | hx2
        · simpa using hlt
        · have := ha x hx2
          simp only [decide_eq_true_eq]
          omega
      rw [hc0]
      refine ⟨by simp, ?_⟩
      rcases List.mem_cons.mp hg with rfl | hgT
      · rfl
      · have h1 := ha g hgT
        have h2 : a = g := by omega
        simpa using h2

/-- The sorted pair list underlying `argsort xs`. -/
def sortedPairs (xs : List ℕ) : List (ℕ × ℕ) :=
  insertionSort pairLe (indexPairs xs 0)

theorem argsort_eq_map_snd (xs : List ℕ) :
    argsort xs = (sortedPairs xs).map Prod.snd := rfl

theorem sortedPairs_length (xs : List ℕ) :
    (sortedPairs xs).length = xs.length := by
  rw [sortedPairs, insertionSort_length, indexPairs_length]

theorem mem_sortedPairs (xs : List ℕ) (p : ℕ × ℕ)
    (hp : p ∈ sortedPairs xs) : p.2 < xs.length ∧ xs.getD p.2 0 = p.1 := by
  have hp2 := (mem_insertionSort _ _ p).mp hp
  obtain ⟨h1, h2, h3⟩ := mem_indexPairs xs 0 p hp2
  rw [Nat.sub_zero] at h2 h3
  exact ⟨h2, h3⟩

theorem argsort_map_getD (xs : List ℕ) :
    (argsort xs).map (fun i => xs.getD i 0) =
      (sortedPairs xs).map Prod.fst := by
  rw [argsort_eq_map_snd, List.map_map]
  apply List.map_congr_left
  intro p hp
  simp only [Function.comp_apply]
  exact (mem_sortedPairs xs p hp).2

theorem sortedPairs_fst_sorted (xs : List ℕ) :
    ((sortedPairs xs).map Prod.fst).Pairwise (fun x y => x ≤ y) := by
  have hp := pairwise_insertionSort pairLe pairLe_total pairLe_trans
    (indexPairs xs 0)
  exact hp.map _ (fun a b h => pairLe_fst a b h)

theorem mem_fst_sortedPairs (xs : List ℕ) (g : ℕ) :
    g ∈ (sortedPairs xs).map Prod.fst ↔ g ∈ xs := by
  constructor
  · intro h
    obtain ⟨p, hp, rfl⟩ := List.mem_map.mp h
    obtain ⟨h2, h3⟩ := mem_sortedPairs xs p hp
    rw [← h3, List.getD_eq_getElem xs 0 h2]
    exact List.getElem_mem h2
  · intro h
    rw [← map_fst_indexPairs xs 0] at h
    obtain ⟨p, hp, hfst⟩ := List.mem_map.mp h
    exact List.mem_map.mpr ⟨p, (mem_insertionSort _ _ p).mpr hp, hfst⟩

/-! ## Characterization of `intersect_groups` -/

theorem argsort_length (xs : List ℕ) : (argsort xs).length = xs.length := by
  rw [argsort_eq_map_snd, List.length_map, sortedPairs_length]

theorem argsort_getD_pair (xs : List ℕ) (c : ℕ)
    (hc : c < (sortedPairs xs).length) :
    (argsort xs).getD c 0 = ((sortedPairs xs).get ⟨c, hc⟩).2 := by
  rw [argsort_eq_map_snd,
    List.getD_eq_getElem _ _ (by rw [List.length_map]; exact hc),
    List.getElem_map, List.get_eq_getElem]

theorem igBody_of_mem (xs : List ℕ) (hne : xs ≠ []) (g : ℕ) (hg : g ∈ xs) :
    ∃ yi, igBody xs g = some yi ∧ yi < xs.length ∧ xs.getD yi 0 = g := by
  have hsx := argsort_map_getD xs
  have hsorted := sortedPairs_fst_sorted xs
  have hgfst : g ∈ (sortedPairs xs).map Prod.fst :=
    (mem_fst_sortedPairs xs g).mpr hg
  obtain ⟨hsi_lt, hsi_val⟩ := sorted_getD_countP _ hsorted g hgfst
  rw [List.length_map, sortedPairs_length] at hsi_lt
  set si := ((sortedPairs xs).map Prod.fst).countP
    (fun x => decide (x < g)) with hsi
  have hlen : (argsort xs).length = xs.length := argsort_length xs
  have hxs : 0 < xs.length := List.length_pos.mpr hne
  have hmin : min si ((argsort xs).length - 1) = si := by omega
  have hcs : si < (sortedPairs xs).length := by
    rw [sortedPairs_length]; exact hsi_lt
  have hyi := argsort_getD_pair xs si hcs
  set q := (sortedPairs xs).get ⟨si, hcs⟩ with hq
  have hqmem : q ∈ sortedPairs xs := List.get_mem _ _ _
  obtain ⟨hq2, hq3⟩ := mem_sortedPairs xs q hqmem
  have hq1 : q.1 = g := by
    rw [← hsi_val, List.getD_eq_getElem _ _
      (by rw [List.length_map]; exact hcs), List.getElem_map, hq,
      List.get_eq_getElem]
  refine ⟨q.2, ?_, hq2, by rw [hq3, hq1]⟩
  simp only [igBody]
  rw [hsx, ← hsi, hmin, hyi]
  rw [if_pos (by rw [hq3, hq1])]

theorem igBody_of_not_mem (xs : List ℕ) (hne : xs ≠ []) (g : ℕ)
    (hg : g ∉ xs) : igBody xs g = none := by
  have hsx := argsort_map_getD xs
  have hlen : (argsort xs).length = xs.length := argsort_length xs
  have hxs : 0 < xs.length := List.length_pos.mpr hne
  simp only [igBody]
  rw [hsx]
  set si := ((sortedPairs xs).map Prod.fst).countP
    (fun x => decide (x < g)) with hsi
  have hclip : min si ((argsort xs).length - 1) < (sortedPairs xs).length := by
    rw [sortedPairs_length]; omega
  have hyi := argsort_getD_pair xs _ hclip
  rw [hyi]
  set q := (sortedPairs xs).get ⟨min si ((argsort xs).length - 1), hclip⟩
    with hq
  have hqmem : q ∈ sortedPairs xs := List.get_mem _ _ _
  obtain ⟨hq2, hq3⟩ := mem_sortedPairs xs q hqmem
  rw [if_neg]
  rw [hq3]
  intro hcontr
  apply hg
  rw [← hcontr]
  exact (mem_fst_sortedPairs xs q.1).mp (List.mem_map.mpr ⟨q, hqmem, rfl⟩)

theorem igBody_isSome (xs : List ℕ) (hne : xs ≠ []) (g : ℕ) :
    (igBody xs g).isSome = xs.contains g := by
  by_cases hg : g ∈ xs
  · obtain ⟨yi, hyi, _, _⟩ := igBody_of_mem xs hne g hg
    rw [hyi]
    simp [hg]
  · rw [igBody_of_not_mem xs hne g hg]
    simp [hg]

theorem length_filterMap_eq_countP {α β : Type _} (f : α → Option β)
    (l : List α) :
    (l.filterMap f).length = l.countP (fun a => (f a).isSome) := by
  induction l with
  | nil => rfl
  | cons a as ih =>
    rw [List.filterMap_cons, List.countP_cons]
    cases hfa : f a with
    | none => simp [hfa, ih]
    | some b => simp [hfa, ih]

theorem intersectGroups_length (group xs : List ℕ) (hne : xs ≠ []) :
    (intersectGroups group xs).length =
      group.countP (fun v => xs.contains v) := by
  rw [intersectGroups, length_filterMap_eq_countP]
  apply List.countP_congr
  intro v _
  rw [igBody_isSome xs hne v]

theorem intersectGroups_mem (group xs : List ℕ) (hne : xs ≠ []) (p : ℕ)
    (hp : p ∈ intersectGroups group xs) :
    p < xs.length ∧ xs.getD p 0 ∈ group := by
  rw [intersectGroups] at hp
  obtain ⟨g, hg, hfg⟩ := List.mem_filterMap.mp hp
  by_cases hgx : g ∈ xs
  · obtain ⟨yi, hyi, hlt, hval⟩ := igBody_of_mem xs hne g hgx
    rw [hyi, Option.some.injEq] at hfg
    subst hfg
    exact ⟨hlt, by rw [hval]; exact hg⟩
  · rw [igBody_of_not_mem xs hne g hgx] at hfg
    exact absurd hfg (by simp)

/-! ## Structure of `select` -/

theorem cumsum_length (l : List ℕ) : (cumsum l).length = l.length := by
  induction l with
  | nil => rfl
  | cons a as ih => simp [cumsum, ih]

theorem sum_pos_of_mem_pos (lens : List ℕ) (hne : lens ≠ [])
    (hpos : ∀ l ∈ lens, 0 < l) : 0 < lens.sum := by
  cases lens with
  | nil => exact absurd rfl hne
  | cons a as =>
    have := hpos a (by simp)
    simp only [List.sum_cons]
    omega

theorem lens_lt_of_sum_lt (lens : List ℕ) (c : ℕ) (h : lens.sum < c) :
    ∀ l ∈ lens, l < c := by
  intro l hl
  have hle : l ≤ lens.sum :=
    List.single_le_sum (fun x _ => Nat.zero_le x) l hl
  omega

theorem select_ok_of_lt (t : TrxFile) (indices : List ℤ) (kg : Bool)
    (hne : indices ≠ [])
    (hlt : ∀ j ∈ indices, u32 j < t.nb_streamlines) :
    select t indices kg =
      Except.ok (selectBody t (indices.map u32) kg) := by
  have hne2 : indices.map u32 ≠ [] := by simpa using hne
  obtain ⟨j0, hj0⟩ := List.exists_mem_of_ne_nil indices hne
  have hn : 0 < t.nb_streamlines := by
    have := hlt j0 hj0
    omega
  have hmax : (indices.map u32).foldr max 0 ≤ t.nb_streamlines - 1 := by
    apply foldr_max_le
    intro x hx
    obtain ⟨j, hj, rfl⟩ := List.mem_map.mp hx
    have := hlt j hj
    omega
  have hguard : ¬((indices.map u32 ≠ []) ∧
      ((((indices.map u32).foldr max 0 : ℕ) : ℤ) >
          (t.nb_streamlines : ℤ) - 1 ∨
        (((indices.map u32).foldr min ((indices.map u32).headD 0) : ℕ) : ℤ)
          < 0)) := by
    rintro ⟨-, h2 | h3⟩
    · omega
    · omega
  simp only [select]
  rw [if_neg hguard, if_neg hne2]

theorem select_empty (t : TrxFile) (kg : Bool) :
    select t [] kg = Except.ok (pruneMetadata false (initAs t)) := by
  simp [select]

theorem selectBody_spec (t : TrxFile) (lens : List ℕ) (idx : List ℕ)
    (kg : Bool) (hv : ValidWith t lens) (hne : idx ≠ [])
    (hidx : ∀ i ∈ idx, i < lens.length) :
    (selectBody t idx kg).offsets =
      offsetsOf (idx.map (fun i => lens.getD i 0)) ∧
    (selectBody t idx kg).positions =
      (idx.map (fun i => streamlineBlock t lens i)).flatten ∧
    (selectBody t idx kg).nb_streamlines = idx.length ∧
    (selectBody t idx kg).nb_points =
      (idx.map (fun i => lens.getD i 0)).sum ∧
    (selectBody t idx kg).positions.length =
      (idx.map (fun i => lens.getD i 0)).sum := by
  obtain ⟨hoff, hnp, hns, hpos, hlpos, hsum32, hlen32, hdpp, hdps⟩ := hv
  have hlne : lens ≠ [] := by
    obtain ⟨i, hi⟩ := List.exists_mem_of_ne_nil idx hne
    have hii := hidx i hi
    intro hc
    rw [hc] at hii
    simp at hii
  have hlb : ∀ l ∈ lens, l < 4294967296 := lens_lt_of_sum_lt lens _ hsum32
  have hlengths : computeLengths t.offsets t.nb_points = lens := by
    rw [hoff, hnp]
    exact computeLengths_offsetsOf lens hlne hlb
  have hposval : gatherBlocks t.positions t.offsets lens idx =
      (idx.map (fun i => streamlineBlock t lens i)).flatten := by
    rw [hoff, gatherBlocks]
    congr 1
    apply List.map_congr_left
    intro i hi
    rw [streamlineBlock, offsetsOf, offsetsFrom_getD 0 lens i (hidx i hi),
      Nat.zero_add]
  have hposlen : (gatherBlocks t.positions t.offsets lens idx).length =
      (idx.map (fun i => lens.getD i 0)).sum := by
    rw [hoff]
    exact gatherBlocks_length t.positions lens idx hidx (le_of_eq hpos.symm)
  have hselne : idx.map (fun i => lens.getD i 0) ≠ [] := by
    simpa using hne
  have hidxpos : 0 < idx.length := List.length_pos.mpr hne
  simp only [selectBody, TrxFile.streamlines, pruneMetadata_offsets,
    pruneMetadata_positions, pruneMetadata_nb_points,
    pruneMetadata_nb_streamlines]
  rw [hlengths]
  refine ⟨(offsetsOf_eq_cumsum _ hselne).symm, hposval, ?_, hposlen, ?_⟩
  · simp only [List.length_cons, cumsum_length, List.length_dropLast,
      List.length_map]
    omega
  · rw [hposval] at hposlen
    rw [hposval]
    exact hposlen

/-! ## Structure of `append` -/

theorem appendGrow_fields (s a : TrxFile) (k : Bool) :
    (appendGrow s a k).err = none ∧
    (appendGrow s a k).target.positions = s.positions ++ a.positions ∧
    (appendGrow s a k).target.offsets = s.offsets ++
      a.offsets.map (fun o => (o + s.nb_points) % 18446744073709551616) ∧
    (appendGrow s a k).target.nb_points = s.nb_points + a.nb_points ∧
    (appendGrow s a k).target.nb_streamlines =
      s.nb_streamlines + a.nb_streamlines := by
  simp only [appendGrow]
  split_ifs <;> exact ⟨rfl, rfl, rfl, rfl, rfl⟩

theorem appendGrow_err (s a : TrxFile) (k : Bool) :
    (appendGrow s a k).err = none := (appendGrow_fields s a k).1

theorem appendGrow_target_positions (s a : TrxFile) (k : Bool) :
    (appendGrow s a k).target.positions = s.positions ++ a.positions :=
  (appendGrow_fields s a k).2.1

theorem appendGrow_target_offsets (s a : TrxFile) (k : Bool) :
    (appendGrow s a k).target.offsets = s.offsets ++
      a.offsets.map (fun o => (o + s.nb_points) % 18446744073709551616) :=
  (appendGrow_fields s a k).2.2.1

theorem appendGrow_target_nb_points (s a : TrxFile) (k : Bool) :
    (appendGrow s a k).target.nb_points = s.nb_points + a.nb_points :=
  (appendGrow_fields s a k).2.2.2.1

theorem appendGrow_target_nb_streamlines (s a : TrxFile) (k : Bool) :
    (appendGrow s a k).target.nb_streamlines =
      s.nb_streamlines + a.nb_streamlines :=
  (appendGrow_fields s a k).2.2.2.2

theorem append_err_cases (self app : TrxFile) (d k : Bool)
    (h : (append self app d k).err.isSome) :
    ((append self app d k).target = self ∨
     (append self app d k).target = pruneMetadata false self) ∧
    ((append self app d k).source = app ∨
     (append self app d k).source = pruneMetadata false app) := by
  simp only [append] at h ⊢
  split_ifs at h ⊢
  all_goals first
    | exact ⟨Or.inl rfl, Or.inl rfl⟩
    | exact ⟨Or.inl rfl, Or.inr rfl⟩
    | exact ⟨Or.inr rfl, Or.inl rfl⟩
    | exact ⟨Or.inr rfl, Or.inr rfl⟩
    | exact ⟨Or.inr (pruneMetadata_idem self), Or.inl rfl⟩
    | exact ⟨Or.inr (pruneMetadata_idem self), Or.inr rfl⟩
    | exact ⟨Or.inr (pruneMetadata_idem self),
        Or.inr (pruneMetadata_idem app)⟩
    | exact ⟨Or.inl rfl, Or.inr (pruneMetadata_idem app)⟩
    | exact ⟨Or.inr rfl, Or.inr (pruneMetadata_idem app)⟩
    | (rw [appendGrow_err] at h; exact absurd h (by simp))

theorem append_none_fields (self app : TrxFile) (d k : Bool)
    (h : (append self app d k).err = none) :
    (append self app d k).target.positions =
      self.positions ++ app.positions ∧
    (append self app d k).target.offsets = self.offsets ++
      app.offsets.map (fun o =>
        (o + self.nb_points) % 18446744073709551616) ∧
    (append self app d k).target.nb_points =
      self.nb_points + app.nb_points ∧
    (append self app d k).target.nb_streamlines =
      self.nb_streamlines + app.nb_streamlines := by
  simp only [append] at h ⊢
  split_ifs at h ⊢
  all_goals first
    | exact absurd h (by simp)
    | (refine ⟨?_, ?_, ?_, ?_⟩ <;>
        simp [appendGrow_target_positions, appendGrow_target_offsets,
          appendGrow_target_nb_points, appendGrow_target_nb_streamlines,
          pruneMetadata_positions, pruneMetadata_offsets,
          pruneMetadata_nb_points, pruneMetadata_nb_streamlines])

/-! ## Invariant preservation -/

theorem append_ok_inv (t s : TrxFile) (lt ls : List ℕ) (d k : Bool)
    (hvt : ValidWith t lt) (hvs : ValidWith s ls)
    (h : (append t s d k).err = none) : Inv (append t s d k).target := by
  obtain ⟨hpos, hoff, hnp, hns⟩ := append_none_fields t s d k h
  obtain ⟨toff, tnp, tns, tpos, tlp, ts32, tl32, -, -⟩ := hvt
  obtain ⟨soff, snp, sns, spos, slp, ss32, sl32, -, -⟩ := hvs
  apply inv_of_valid_core _ (lt ++ ls)
  · rw [hoff, toff, soff, tnp]
    have hmod : ∀ o ∈ offsetsOf ls,
        (o + lt.sum) % 18446744073709551616 = o + lt.sum := by
      intro o ho
      have h1 := offsetsFrom_mem_le 0 ls o ho
      apply Nat.mod_eq_of_lt
      omega
    rw [List.map_congr_left hmod]
    have h2 : (offsetsOf ls).map (fun o => o + lt.sum) =
        offsetsFrom lt.sum ls := by
      have h3 := offsetsFrom_shift 0 lt.sum ls
      rw [Nat.zero_add] at h3
      rw [offsetsOf, ← h3]
    rw [h2, offsetsOf, offsetsOf, offsetsFrom_append 0 lt ls, Nat.zero_add]
  · rw [hnp, tnp, snp, List.sum_append]
  · rw [hns, tns, sns, List.length_append]
  · rw [hpos, List.length_append, tpos, spos, List.sum_append]
  · intro l hl
    rcases List.mem_append.mp hl with h1 | h1
    · exact lens_lt_of_sum_lt lt _ ts32 l h1
    · exact lens_lt_of_sum_lt ls _ ss32 l h1

theorem select_ok_inv (t : TrxFile) (lens : List ℕ) (indices : List ℤ)
    (kg : Bool) (R : TrxFile) (hv : ValidWith t lens)
    (h : select t indices kg = Except.ok R) : Inv R := by
  by_cases hne : indices.map u32 = []
  · have hinil : indices = [] := by simpa using hne
    subst hinil
    rw [select_empty t kg] at h
    have hR : R = pruneMetadata false (initAs t) := by
      injection h with h2
      exact h2.symm
    subst hR
    exact ⟨rfl, rfl, fun hc => absurd rfl hc⟩
  · by_cases hg : (((indices.map u32).foldr max 0 : ℕ) : ℤ) >
        (t.nb_streamlines : ℤ) - 1
    · have herr : select t indices kg =
          Except.error TrxError.indexOutOfRange := by
        simp only [select]
        rw [if_pos ⟨hne, Or.inl hg⟩]
      rw [herr] at h
      exact absurd h (by simp)
    · have hguard : ¬((indices.map u32 ≠ []) ∧
          ((((indices.map u32).foldr max 0 : ℕ) : ℤ) >
              (t.nb_streamlines : ℤ) - 1 ∨
            (((indices.map u32).foldr min
                ((indices.map u32).headD 0) : ℕ) : ℤ) < 0)) := by
        rintro ⟨-, h1 | h2⟩
        · exact hg h1
        · omega
      have hsel : select t indices kg =
          Except.ok (selectBody t (indices.map u32) kg) := by
        simp only [select]
        rw [if_neg hguard, if_neg hne]
      rw [hsel] at h
      have hR : R = selectBody t (indices.map u32) kg := by
        injection h with h2
        exact h2.symm
      subst hR
      have hns : t.nb_streamlines = lens.length := hv.2.2.1
      have hidx : ∀ i ∈ indices.map u32, i < lens.length := by
        intro i hi
        have h1 := le_foldr_max _ i hi
        rw [hns] at hg
        omega
      obtain ⟨hOff, hPos, hNs, hNp, hPl⟩ :=
        selectBody_spec t lens (indices.map u32) kg hv hne hidx
      apply inv_of_valid_core _
        ((indices.map u32).map (fun i => lens.getD i 0)) hOff hNp ?_ hPl ?_
      · rw [hNs]
        simp
      · intro l hl
        obtain ⟨i, hi, rfl⟩ := List.mem_map.mp hl
        have hii := hidx i hi
        rw [List.getD_eq_getElem lens 0 hii]
        exact lens_lt_of_sum_lt lens _ hv.2.2.2.2.2.1 _ (List.getElem_mem hii)

theorem prune_inv (t : TrxFile) (lens : List ℕ) (f : Bool)
    (hv : ValidWith t lens) : Inv (pruneMetadata f t) := by
  obtain ⟨hoff, hnp, hns, hpos, -, hs32, -, -, -⟩ := hv
  apply inv_of_valid_core _ lens
  · rw [pruneMetadata_offsets]; exact hoff
  · rw [pruneMetadata_nb_points]; exact hnp
  · rw [pruneMetadata_nb_streamlines]; exact hns
  · rw [pruneMetadata_positions]; exact hpos
  · exact lens_lt_of_sum_lt lens _ hs32

/-! ## Identity selection and group selection -/

theorem pruneMetadata_dpp (f : Bool) (t : TrxFile) :
    (pruneMetadata f t).dpp =
      t.dpp.filter (fun kv => !(kv.2.length == 0 || f)) := rfl

theorem pruneMetadata_dps (f : Bool) (t : TrxFile) :
    (pruneMetadata f t).dps =
      t.dps.filter (fun kv => !(kv.2.length == 0 || f)) := rfl

theorem pruneMetadata_grp (f : Bool) (t : TrxFile) :
    (pruneMetadata f t).grp =
      t.grp.filter (fun kv => !(kv.2.length == 0 || f)) := rfl

theorem gatherBlocks_identity {α : Type _} (lens : List ℕ) (data : List α)
    (hlen : data.length = lens.sum) :
    gatherBlocks data (offsetsOf lens) lens (List.range lens.length)
      = data := by
  rw [gatherBlocks, offsetsOf, gather_blocks_from lens data 0,
    List.drop_zero, ← hlen, List.take_length]

theorem selectBody_identity (t : TrxFile) (lens : List ℕ) (kg : Bool)
    (hv : ValidWith t lens) (hlne : lens ≠ []) :
    (selectBody t (List.range lens.length) kg).positions = t.positions ∧
    (selectBody t (List.range lens.length) kg).offsets = t.offsets ∧
    (selectBody t (List.range lens.length) kg).nb_points = t.nb_points ∧
    (selectBody t (List.range lens.length) kg).nb_streamlines =
      t.nb_streamlines ∧
    (selectBody t (List.range lens.length) kg).dpp = t.dpp ∧
    (selectBody t (List.range lens.length) kg).dps = t.dps := by
  obtain ⟨hoff, hnp, hns, hpos, hlpos, hsum32, hlen32, hdpp, hdps⟩ := hv
  have hlb : ∀ l ∈ lens, l < 4294967296 := lens_lt_of_sum_lt lens _ hsum32
  have hlengths : computeLengths t.offsets t.nb_points = lens := by
    rw [hoff, hnp]
    exact computeLengths_offsetsOf lens hlne hlb
  have hidr : ∀ i ∈ List.range lens.length, i < lens.length :=
    fun i hi => List.mem_range.mp hi
  have hrne : List.range lens.length ≠ [] := by
    rw [Ne, List.range_eq_nil]
    intro hc
    exact hlne (List.length_eq_zero.mp hc)
  have hselLens : (List.range lens.length).map (fun i => lens.getD i 0)
      = lens := map_getD_range lens 0
  obtain ⟨hOff, hPos, hNs, hNp, hPl⟩ := selectBody_spec t lens
    (List.range lens.length) kg
    ⟨hoff, hnp, hns, hpos, hlpos, hsum32, hlen32, hdpp, hdps⟩ hrne hidr
  refine ⟨?_, ?_, ?_, ?_, ?_, ?_⟩
  · simp only [selectBody, TrxFile.streamlines, pruneMetadata_positions]
    rw [hlengths, hoff]
    exact gatherBlocks_identity lens t.positions hpos
  · rw [hOff, hselLens, hoff]
  · rw [hNp, hselLens, hnp]
  · rw [hNs, List.length_range, hns]
  · simp only [selectBody, TrxFile.streamlines, pruneMetadata_dpp]
    rw [hlengths, hoff]
    have hmap : t.dpp.map (fun kv => (kv.1, gatherBlocks kv.2
        (offsetsOf lens) lens (List.range lens.length))) = t.dpp := by
      have hcg : ∀ kv ∈ t.dpp, (kv.1, gatherBlocks kv.2 (offsetsOf lens)
          lens (List.range lens.length)) = id kv := by
        intro kv hkv
        rw [gatherBlocks_identity lens kv.2 (hdpp kv hkv)]
        simp
      rw [List.map_congr_left hcg, List.map_id]
    rw [hmap]
    apply List.filter_eq_self.mpr
    intro kv hkv
    have h1 := hdpp kv hkv
    have hsum_pos : 0 < lens.sum := sum_pos_of_mem_pos lens hlne hlpos
    have h2 : kv.2.length ≠ 0 := by omega
    simp [h2]
  · simp only [selectBody, TrxFile.streamlines, pruneMetadata_dps]
    have hmap : t.dps.map (fun kv =>
        (kv.1, (List.range lens.length).map (fun i => kv.2.getD i [])))
        = t.dps := by
      have hcg : ∀ kv ∈ t.dps, (kv.1, (List.range lens.length).map
          (fun i => kv.2.getD i [])) = id kv := by
        intro kv hkv
        rw [← hdps kv hkv, map_getD_range]
        simp
      rw [List.map_congr_left hcg, List.map_id]
    rw [hmap]
    apply List.filter_eq_self.mpr
    intro kv hkv
    have h1 := hdps kv hkv
    have hl_pos : 0 < lens.length := List.length_pos.mpr hlne
    have h2 : kv.2.length ≠ 0 := by omega
    simp [h2]

theorem selectBody_grp (t : TrxFile) (idx : List ℕ) :
    (selectBody t idx true).grp = t.grp.filterMap (fun kv =>
      let ng := intersectGroups kv.2 idx
      if ng.length != 0 then some (kv.1, ng) else none) := by
  simp only [selectBody, pruneMetadata_grp, if_true]
  apply List.filter_eq_self.mpr
  intro kv hkv
  obtain ⟨kv0, hkv0, hf⟩ := List.mem_filterMap.mp hkv
  split at hf
  case isTrue hlen =>
    rw [Option.some.injEq] at hf
    subst hf
    simpa using hlen
  case isFalse =>
    exact absurd hf (by simp)

/-! ## Concrete containers used by witnesses and counterexamples -/

/-- Identity 4x4 affine, flattened row-major. -/
def idAffine : List ℤ :=
  [1, 0, 0, 0, 0, 1, 0, 0, 0, 0, 1, 0, 0, 0, 0, 1]

/-- One streamline of one point, group "g" = [0]. -/
def T1 : TrxFile :=
  { voxel_to_rasmm := idAffine, dimensions := [1, 1, 1],
    nb_streamlines := 1, nb_points := 1,
    positions := [(0, 0, 0)], offsets := [0],
    dpp := [], dps := [], grp := [("g", [0])], dpg := [], isZip := false }

/-- One streamline of one point, group "g" = [0] (append source). -/
def S1 : TrxFile :=
  { voxel_to_rasmm := idAffine, dimensions := [1, 1, 1],
    nb_streamlines := 1, nb_points := 1,
    positions := [(1, 1, 1)], offsets := [0],
    dpp := [], dps := [], grp := [("g", [0])], dpg := [], isZip := false }

/-- Two one-point streamlines, group "g" = [0]. -/
def Tc2 : TrxFile :=
  { voxel_to_rasmm := idAffine, dimensions := [1, 1, 1],
    nb_streamlines := 2, nb_points := 2,
    positions := [(1, 1, 1), (2, 2, 2)], offsets := [0, 1],
    dpp := [], dps := [], grp := [("g", [0])], dpg := [], isZip := false }

/-- One streamline, per-point arrays "a" (full) and "b" (zero rows). -/
def T3c : TrxFile :=
  { voxel_to_rasmm := idAffine, dimensions := [1, 1, 1],
    nb_streamlines := 1, nb_points := 1,
    positions := [(0, 0, 0)], offsets := [0],
    dpp := [("a", [[5]]), ("b", [])], dps := [], grp := [], dpg := [],
    isZip := false }

/-- One streamline, per-point array "c" (key set differs from T3c). -/
def S3c : TrxFile :=
  { voxel_to_rasmm := idAffine, dimensions := [1, 1, 1],
    nb_streamlines := 1, nb_points := 1,
    positions := [(1, 1, 1)], offsets := [0],
    dpp := [("c", [[7]])], dps := [], grp := [], dpg := [], isZip := false }

/-- One bare streamline (no metadata, no per-group data). -/
def T4 : TrxFile :=
  { voxel_to_rasmm := idAffine, dimensions := [1, 1, 1],
    nb_streamlines := 1, nb_points := 1,
    positions := [(0, 0, 0)], offsets := [0],
    dpp := [], dps := [], grp := [], dpg := [], isZip := false }

/-- One streamline carrying group "g" and per-group data under it. -/
def S4 : TrxFile :=
  { voxel_to_rasmm := idAffine, dimensions := [1, 1, 1],
    nb_streamlines := 1, nb_points := 1,
    positions := [(1, 1, 1)], offsets := [0],
    dpp := [], dps := [], grp := [("g", [0])],
    dpg := [("g", [("v", [[1]])])], isZip := false }

/-- Like T4 but with a different affine (for a SchemaMismatch input). -/
def Sq : TrxFile :=
  { voxel_to_rasmm :=
      [5, 0, 0, 0, 0, 1, 0, 0, 0, 0, 1, 0, 0, 0, 0, 1],
    dimensions := [1, 1, 1],
    nb_streamlines := 1, nb_points := 1,
    positions := [(1, 1, 1)], offsets := [0],
    dpp := [], dps := [], grp := [], dpg := [], isZip := false }

/-- Two streamlines of lengths [2, 1] with per-point, per-streamline and
group data. -/
def Tw : TrxFile :=
  { voxel_to_rasmm := idAffine, dimensions := [1, 1, 1],
    nb_streamlines := 2, nb_points := 3,
    positions := [(1, 1, 1), (2, 2, 2), (3, 3, 3)], offsets := [0, 2],
    dpp := [("fa", [[1], [2], [3]])], dps := [("w", [[9], [8]])],
    grp := [("g", [0])], dpg := [], isZip := false }

/-- One streamline of one point with the same key sets as Tw. -/
def Sw : TrxFile :=
  { voxel_to_rasmm := idAffine, dimensions := [1, 1, 1],
    nb_streamlines := 1, nb_points := 1,
    positions := [(9, 9, 9)], offsets := [0],
    dpp := [("fa", [[4]])], dps := [("w", [[7]])],
    grp := [], dpg := [], isZip := false }

/-- Three streamlines of lengths [2, 3, 2] (offsets [0, 2, 5], 7 points). -/
def T3x : TrxFile :=
  { voxel_to_rasmm := idAffine, dimensions := [1, 1, 1],
    nb_streamlines := 3, nb_points := 7,
    positions := [(1, 1, 1), (2, 2, 2), (3, 3, 3), (4, 4, 4), (5, 5, 5),
      (6, 6, 6), (7, 7, 7)],
    offsets := [0, 2, 5],
    dpp := [], dps := [], grp := [], dpg := [], isZip := false }

/-- A container with zero streamlines. -/
def Ew : TrxFile :=
  { voxel_to_rasmm := idAffine, dimensions := [1, 1, 1],
    nb_streamlines := 0, nb_points := 0,
    positions := [], offsets := [],
    dpp := [], dps := [], grp := [], dpg := [], isZip := false }

/-! ## Claim theorems -/

/-- Claim C1 (code bug): in `append`, the source's group indices are shifted
by `self.nb_streamlines` *after* that attribute has already been
incremented, i.e. by the post-append streamline count - not by the
pre-append count as the claim (and the offsets shift two lines earlier)
require.  Evaluating the code at the failing input: appending two
one-streamline containers that both carry group "g" = [0] yields target
group "g" = [0, 2] (shift 2 = post-append count; index 2 is out of range
for the resulting `nb_streamlines` = 2), where the claimed pre-append shift
1 would give [0, 1]. -/
theorem C1_code_eval :
    (append T1 S1 false true).err = none ∧
    (append T1 S1 false true).target.nb_streamlines = 2 ∧
    (append T1 S1 false true).target.grp = [("g", [0, 2])] := by
  decide

/-- Claim C2 counterexample: selecting `[0, 0]` (streamline 0 twice) with
`keep_group` from a container whose group "g" is [0] emits ONE output
membership, not the two the claim requires - `intersect_groups` iterates
over group elements, not over occurrences in `indices`. -/
theorem C2_counterexample :
    ∃ R, select Tc2 [(0 : ℤ), 0] true = Except.ok R ∧
      R.nb_streamlines = 2 ∧ R.grp = [("g", [0])] :=
  ⟨_, rfl, rfl, rfl⟩

/-- Claim C2 (amended): with `keep_group`, a group's new membership is
computed per *group element*: each element of the group list whose value
occurs in `indices` contributes exactly one membership entry, placed at a
position of `indices` that holds that value; a streamline appearing twice
in `indices` and once in the group therefore yields one output membership
(and a value appearing twice in the group and once in `indices` yields
two).  The third conjunct ties this to `select`'s construction phase:
every surviving group is exactly the `intersect_groups` result. -/
theorem C2_amended (group indices : List ℕ) (hne : indices ≠ []) :
    ((intersectGroups group indices).length =
      group.countP (fun v => indices.contains v)) ∧
    (∀ p ∈ intersectGroups group indices,
      p < indices.length ∧ indices.getD p 0 ∈ group) ∧
    (∀ t : TrxFile, (selectBody t indices true).grp =
      t.grp.filterMap (fun kv =>
        let ng := intersectGroups kv.2 indices
        if ng.length != 0 then some (kv.1, ng) else none)) :=
  ⟨intersectGroups_length group indices hne,
   fun p hp => intersectGroups_mem group indices hne p hp,
   fun t => selectBody_grp t indices⟩

/-- Claim C2 witness: the spec's own scenario - group {0, 2}, selection
order [2, 0, 1] - has two members present in the indices. -/
theorem C2_amended_witness :
    (intersectGroups [0, 2] [2, 0, 1]).length =
      List.countP (fun v => [2, 0, 1].contains v) [0, 2] :=
  (C2_amended [0, 2] [2, 0, 1] (by decide)).1

/-- Claim C3 counterexample: the key-set precondition check runs only after
`is_empty()` has pruned both containers, and pruning deletes zero-length
metadata entries.  Appending a source with per-point key "c" to a target
with keys "a" (full) and "b" (zero rows) fails `KeySetMismatch`, but the
returned target has lost key "b" - its metadata key set was mutated by a
failing precondition check. -/
theorem C3_counterexample :
    (append T3c S3c false true).err = some TrxError.keySetMismatch ∧
    (append T3c S3c false true).target ≠ T3c ∧
    (append T3c S3c false true).target.dpp = [("a", [[5]])] ∧
    T3c.dpp = [("a", [[5]]), ("b", [])] := by
  decide

/-- Claim C3 (amended): whenever `append` fails one of its precondition
checks, the positions, offsets, `point_count` and `streamline_count` of
both containers are unchanged, and each container is either exactly
unchanged or exactly its metadata-pruned form (zero-length entries and
orphaned per-group entries removed by the emptiness checks) - no data is
appended. -/
theorem C3_amended (t s : TrxFile) (d k : Bool)
    (h : (append t s d k).err.isSome) :
    ((append t s d k).target = t ∨
      (append t s d k).target = pruneMetadata false t) ∧
    ((append t s d k).source = s ∨
      (append t s d k).source = pruneMetadata false s) ∧
    (append t s d k).target.positions = t.positions ∧
    (append t s d k).target.offsets = t.offsets ∧
    (append t s d k).target.nb_points = t.nb_points ∧
    (append t s d k).target.nb_streamlines = t.nb_streamlines ∧
    (append t s d k).source.positions = s.positions ∧
    (append t s d k).source.offsets = s.offsets ∧
    (append t s d k).source.nb_points = s.nb_points ∧
    (append t s d k).source.nb_streamlines = s.nb_streamlines := by
  obtain ⟨ht, hs⟩ := append_err_cases t s d k h
  refine ⟨ht, hs, ?_, ?_, ?_, ?_, ?_, ?_, ?_, ?_⟩
  · rcases ht with h1 | h1 <;> rw [h1]
    exact pruneMetadata_positions false t
  · rcases ht with h1 | h1 <;> rw [h1]
    exact pruneMetadata_offsets false t
  · rcases ht with h1 | h1 <;> rw [h1]
    exact pruneMetadata_nb_points false t
  · rcases ht with h1 | h1 <;> rw [h1]
    exact pruneMetadata_nb_streamlines false t
  · rcases hs with h1 | h1 <;> rw [h1]
    exact pruneMetadata_positions false s
  · rcases hs with h1 | h1 <;> rw [h1]
    exact pruneMetadata_offsets false s
  · rcases hs with h1 | h1 <;> rw [h1]
    exact pruneMetadata_nb_points false s
  · rcases hs with h1 | h1 <;> rw [h1]
    exact pruneMetadata_nb_streamlines false s

/-- Claim C3 witness: a SchemaMismatch failure (differing affines) leaves
the target exactly unchanged. -/
theorem C3_amended_witness :
    ((append T4 Sq false true).target = T4 ∨
      (append T4 Sq false true).target = pruneMetadata false T4) ∧
    (append T4 Sq false true).target.positions = T4.positions :=
  ⟨(C3_amended T4 Sq false true (by decide)).1,
   (C3_amended T4 Sq false true (by decide)).2.2.1⟩

/-- Claim C4 (code bug): the ambiguous-policy check in `append` reads
`len(self._zdpg) or len(self._zdpg)` - the source operand is duplicated,
so per-group data held only by the source never triggers the error.
Evaluating the code at the failing input: target without per-group data,
source with per-group data, neither policy flag set - `append` returns
without error (the claim requires the ambiguous-group-policy failure
before any data is appended). -/
theorem C4_code_eval :
    S4.dpg.length = 1 ∧ T4.dpg.length = 0 ∧
    (append T4 S4 false false).err = none := by
  decide

/-- Claim C5: selecting `[0, 1, ..., streamline_count - 1]` in order from a
valid non-empty container reproduces positions, offsets, per-point and
per-streamline arrays and both counts exactly. -/
theorem C5_select_identity (t : TrxFile) (lens : List ℕ) (kg : Bool)
    (hv : ValidWith t lens) (h1 : 1 ≤ t.nb_streamlines) :
    ∃ R, select t ((List.range t.nb_streamlines).map (fun (i : ℕ) => (i : ℤ))) kg
        = Except.ok R ∧
      R.positions = t.positions ∧ R.offsets = t.offsets ∧
      R.nb_points = t.nb_points ∧ R.nb_streamlines = t.nb_streamlines ∧
      R.dpp = t.dpp ∧ R.dps = t.dps := by
  have hns : t.nb_streamlines = lens.length := hv.2.2.1
  have hl32 : lens.length < 4294967296 := hv.2.2.2.2.2.2.1
  have hlne : lens ≠ [] := by
    intro hc
    rw [hc] at hns
    simp at hns
    omega
  have hne : (List.range t.nb_streamlines).map (fun (i : ℕ) => (i : ℤ)) ≠ [] := by
    intro hc
    have h2 : List.range t.nb_streamlines = [] := by simpa using hc
    rw [List.range_eq_nil] at h2
    omega
  have hlt : ∀ j ∈ (List.range t.nb_streamlines).map (fun (i : ℕ) => (i : ℤ)),
      u32 j < t.nb_streamlines := by
    intro j hj
    obtain ⟨i, hi, rfl⟩ := List.mem_map.mp hj
    have hi2 := List.mem_range.mp hi
    rw [u32_natCast i (by omega)]
    exact hi2
  have hok := select_ok_of_lt t _ kg hne hlt
  have hmapu : ((List.range t.nb_streamlines).map
      (fun (i : ℕ) => (i : ℤ))).map u32 = List.range lens.length := by
    rw [List.map_map, hns]
    have hcg : ∀ i ∈ List.range lens.length,
        (u32 ∘ fun (i : ℕ) => (i : ℤ)) i = id i := by
      intro i hi
      have hi2 := List.mem_range.mp hi
      simp only [Function.comp_apply, id_eq]
      exact u32_natCast i (by omega)
    rw [List.map_congr_left hcg, List.map_id]
  rw [hmapu] at hok
  obtain ⟨hP, hO, hNp, hNs, hDpp, hDps⟩ :=
    selectBody_identity t lens kg hv hlne
  exact ⟨_, hok, hP, hO, hNp, hNs, hDpp, hDps⟩

/-- Claim C5 witness: identity selection on the concrete two-streamline
container Tw. -/
theorem C5_witness :
    ∃ R, select Tw ((List.range Tw.nb_streamlines).map
        (fun (i : ℕ) => (i : ℤ))) true = Except.ok R ∧
      R.positions = Tw.positions ∧ R.offsets = Tw.offsets ∧
      R.nb_points = Tw.nb_points ∧ R.nb_streamlines = Tw.nb_streamlines ∧
      R.dpp = Tw.dpp ∧ R.dps = Tw.dps :=
  C5_select_identity Tw [2, 1] true (by decide) (by decide)

/-- Claim C6: for a valid container and any in-range index sequence
(duplicates allowed), the result's offsets are the exclusive prefix sums
of the selected streamlines' lengths in the given order, its positions the
concatenation of the selected point blocks in that order, and the counts
are the corresponding totals - so a repeated index duplicates its block
and doubles its contribution to the counts. -/
theorem C6_select_order (t : TrxFile) (lens : List ℕ) (indices : List ℤ)
    (kg : Bool) (hv : ValidWith t lens)
    (hidx : ∀ j ∈ indices, 0 ≤ j ∧ j < (t.nb_streamlines : ℤ)) :
    ∃ R, select t indices kg = Except.ok R ∧
      R.offsets =
        offsetsOf ((indices.map Int.toNat).map (fun i => lens.getD i 0)) ∧
      R.positions = ((indices.map Int.toNat).map
        (fun i => streamlineBlock t lens i)).flatten ∧
      R.nb_streamlines = indices.length ∧
      R.nb_points =
        ((indices.map Int.toNat).map (fun i => lens.getD i 0)).sum := by
  have hns : t.nb_streamlines = lens.length := hv.2.2.1
  have hl32 : lens.length < 4294967296 := hv.2.2.2.2.2.2.1
  by_cases hnil : indices = []
  · subst hnil
    exact ⟨_, select_empty t kg, rfl, rfl, rfl, rfl⟩
  · have hn32 : (t.nb_streamlines : ℤ) ≤ 4294967296 := by
      rw [hns]
      exact_mod_cast le_of_lt hl32
    have hcast : indices.map u32 = indices.map Int.toNat := by
      apply List.map_congr_left
      intro j hj
      obtain ⟨h0, h1⟩ := hidx j hj
      have h2 : j < 4294967296 := by omega
      simp only [u32]
      rw [Int.emod_eq_of_lt h0 h2]
    have hlt : ∀ j ∈ indices, u32 j < t.nb_streamlines := by
      intro j hj
      obtain ⟨h0, h1⟩ := hidx j hj
      have h2 : j < 4294967296 := by omega
      simp only [u32]
      rw [Int.emod_eq_of_lt h0 h2]
      omega
    have hok := select_ok_of_lt t indices kg hnil hlt
    have hbound : ∀ i ∈ indices.map u32, i < lens.length := by
      intro i hi
      obtain ⟨j, hj, rfl⟩ := List.mem_map.mp hi
      have h3 := hlt j hj
      omega
    obtain ⟨hOff, hPos, hNs, hNp, hPl⟩ := selectBody_spec t lens
      (indices.map u32) kg hv (by simpa using hnil) hbound
    refine ⟨_, hok, ?_, ?_, ?_, ?_⟩
    · rw [hOff, hcast]
    · rw [hPos, hcast]
    · rw [hNs, List.length_map]
    · rw [hNp, hcast]

/-- Claim C6 witness: selecting `[1, 1]` (a repeated index) from Tw. -/
theorem C6_witness :
    ∃ R, select Tw [(1 : ℤ), 1] true = Except.ok R ∧
      R.offsets = offsetsOf ((([(1 : ℤ), 1]).map Int.toNat).map
        (fun i => [2, 1].getD i 0)) ∧
      R.positions = ((([(1 : ℤ), 1]).map Int.toNat).map
        (fun i => streamlineBlock Tw [2, 1] i)).flatten ∧
      R.nb_streamlines = ([(1 : ℤ), 1]).length ∧
      R.nb_points = ((([(1 : ℤ), 1]).map Int.toNat).map
        (fun i => [2, 1].getD i 0)).sum :=
  C6_select_order Tw [2, 1] [(1 : ℤ), 1] true (by decide) (by decide)

/-- Helper shared by the range-check theorems: one cast index at or above
`nb_streamlines` makes `select` fail. -/
theorem select_err_of_ge (t : TrxFile) (indices : List ℤ) (kg : Bool)
    (j : ℤ) (hj : j ∈ indices) (hge : t.nb_streamlines ≤ u32 j) :
    select t indices kg = Except.error TrxError.indexOutOfRange := by
  have hne : indices.map u32 ≠ [] := by
    intro hc
    have h2 : indices = [] := by simpa using hc
    subst h2
    simp at hj
  have hmax : t.nb_streamlines ≤ (indices.map u32).foldr max 0 :=
    le_trans hge (le_foldr_max _ _ (List.mem_map.mpr ⟨j, hj, rfl⟩))
  simp only [select]
  rw [if_pos]
  exact ⟨hne, Or.inl (by omega)⟩

/-- Claim C7 counterexample: `2^32` lies outside `[0, 3)` yet
`select(T3x, [2^32])` succeeds - the uint32 cast wraps it to 0 before the
range check. -/
theorem C7_counterexample :
    T3x.nb_streamlines = 3 ∧
    ∃ R, select T3x [(4294967296 : ℤ)] true = Except.ok R ∧
      R.nb_streamlines = 1 ∧ R.positions = [(1, 1, 1), (2, 2, 2)] :=
  ⟨rfl, _, rfl, rfl, rfl⟩

/-- Claim C7 (amended): `select` fails with the index-out-of-range error
for every non-empty index sequence containing an index whose reduction
mod 2^32 is at or above `streamline_count`; an out-of-range index congruent
mod 2^32 to a valid one instead passes the check. -/
theorem C7_amended (t : TrxFile) (indices : List ℤ) (kg : Bool)
    (h : ∃ j ∈ indices, t.nb_streamlines ≤ u32 j) :
    select t indices kg = Except.error TrxError.indexOutOfRange := by
  obtain ⟨j, hj, hge⟩ := h
  exact select_err_of_ge t indices kg j hj hge

/-- Claim C7 witness: `select(T3x, [5])` fails (the spec's scenario). -/
theorem C7_witness :
    select T3x [(5 : ℤ)] true = Except.error TrxError.indexOutOfRange :=
  C7_amended T3x [(5 : ℤ)] true ⟨5, by decide, by decide⟩

/-- Claim C8: after each public operation on valid containers the data-model
invariant holds: `len(offsets) = streamline_count`,
`len(positions) = point_count`, and `point_count` equals the last offset
plus the derived length of the last streamline - for `append` (on success),
for `select` (on success, any index sequence), and for `prune_metadata`. -/
theorem C8_invariants :
    (∀ (t s : TrxFile) (lt ls : List ℕ) (d k : Bool),
      ValidWith t lt → ValidWith s ls → (append t s d k).err = none →
        Inv (append t s d k).target) ∧
    (∀ (t : TrxFile) (lens : List ℕ) (indices : List ℤ) (kg : Bool)
        (R : TrxFile), ValidWith t lens →
        select t indices kg = Except.ok R → Inv R) ∧
    (∀ (t : TrxFile) (lens : List ℕ) (f : Bool),
      ValidWith t lens → Inv (pruneMetadata f t)) :=
  ⟨fun t s lt ls d k hvt hvs h => append_ok_inv t s lt ls d k hvt hvs h,
   fun t lens indices kg R hv h => select_ok_inv t lens indices kg R hv h,
   fun t lens f hv => prune_inv t lens f hv⟩

/-- Claim C8 witness: the invariant after appending Sw to Tw, after a
selection from Tw, and after pruning Tw. -/
theorem C8_witness :
    Inv (append Tw Sw false true).target ∧
    Inv ((select Tw [(0 : ℤ)] true).toOption.getD Tw) ∧
    Inv (pruneMetadata false Tw) :=
  ⟨C8_invariants.1 Tw Sw [2, 1] [1] false true (by decide) (by decide)
      (by decide),
   C8_invariants.2.1 Tw [2, 1] [(0 : ℤ)] true _ (by decide) rfl,
   C8_invariants.2.2 Tw [2, 1] false (by decide)⟩

/-- Claim C9: `compute_lengths` on an empty offsets sequence returns the
one-element array [0] (not an empty array) for every `nb_points`, so the
`streamlines` accessor of a container with no offsets derives one
streamline length of zero. -/
theorem C9_compute_lengths_empty (nb : ℕ) (t : TrxFile) :
    computeLengths [] nb = [0] ∧
    (t.offsets = [] → t.streamlines.lengths = [0]) := by
  refine ⟨rfl, ?_⟩
  intro h
  simp [TrxFile.streamlines, h, computeLengths]

/-- Claim C9 witness: evaluated at `nb_points = 7` and the concrete empty
container Ew. -/
theorem C9_witness :
    computeLengths [] 7 = [0] ∧ Ew.streamlines.lengths = [0] :=
  ⟨(C9_compute_lengths_empty 7 Ew).1, (C9_compute_lengths_empty 7 Ew).2 rfl⟩

/-- Claim C10 counterexample: the negative index `-(2^32 - 1)` is accepted
by `select` on a container with `streamline_count = 3` (at most 2^32 - 1):
its uint32 cast wraps to 1, which passes the range check and silently
selects streamline 1 - refuting "every negative input index is
rejected". -/
theorem C10_counterexample :
    T3x.nb_streamlines = 3 ∧ (-4294967295 : ℤ) < 0 ∧
    ∃ R, select T3x [(-4294967295 : ℤ)] true = Except.ok R ∧
      R.nb_streamlines = 1 ∧
      R.positions = [(3, 3, 3), (4, 4, 4), (5, 5, 5)] :=
  ⟨rfl, by decide, _, rfl, rfl, rfl⟩

/-- Claim C10 (amended): `select` casts every index to uint32 (reduction
mod 2^32) before range-checking.  For `streamline_count` at most
2^32 - 1: a negative index `j` with `streamline_count - 2^32 ≤ j` is
rejected (this covers all from-the-end-style negatives when the count is
at most 2^31); any index whose mod-2^32 reduction is a valid index -
including a valid index plus a multiple of 2^32, and more negative
values - passes the check and silently selects the wrapped streamline. -/
theorem C10_amended (t : TrxFile) (indices : List ℤ) (kg : Bool)
    (hcount : t.nb_streamlines ≤ 4294967295) :
    ((∃ j ∈ indices, j < 0 ∧ (t.nb_streamlines : ℤ) - 4294967296 ≤ j) →
      select t indices kg = Except.error TrxError.indexOutOfRange) ∧
    ((∀ j ∈ indices, u32 j < t.nb_streamlines) → indices ≠ [] →
      ∃ R, select t indices kg = Except.ok R) := by
  constructor
  · rintro ⟨j, hj, hneg, hge⟩
    apply select_err_of_ge t indices kg j hj
    simp only [u32]
    omega
  · intro hall hne
    exact ⟨_, select_ok_of_lt t indices kg hne hall⟩

/-- Claim C10 witness: `[-1]` is rejected on T3x while `2^32 + 1` wraps to
the valid index 1 and is accepted. -/
theorem C10_witness :
    select T3x [(-1 : ℤ)] true = Except.error TrxError.indexOutOfRange ∧
    ∃ R, select T3x [(4294967297 : ℤ)] true = Except.ok R :=
  ⟨(C10_amended T3x [(-1 : ℤ)] true (by decide)).1
      ⟨-1, by decide, by decide, by decide⟩,
   (C10_amended T3x [(4294967297 : ℤ)] true (by decide)).2
      (by decide) (by decide)⟩

end TrxZarr
